import Mathlib

/-!
Verification of the habit-streak maintenance program (`habits.py`).

The program stores a "habit streak" as an inline token `[day X/G]` inside the
text of a remote to-do task.  Once per run it walks the task list and, for each
"active habit" task, either resets the streak (missed day), increments it
(done today), or increments and deletes the task (goal reached).

This file is a shallow embedding of that program:
  * strings are `List Char`;
  * the regex `\[day\s(\d+)\/(\d+)]` is embedded as the deterministic matcher
    `matchAt` (the pattern's greedy `\d+` groups are each followed by a
    non-digit literal, so greedy maximal-munch is the unique match);
  * `re.search` is `searchTok` (leftmost match), `re.sub` is `subAll`
    (replace every non-overlapping leftmost match);
  * Python's `\s` and `\d` are modelled by their ASCII parts (`isWS`,
    `Char.isDigit`); `int(...)` on a digit group is `digitsToNat`;
  * `'{}'.format(n)` for a non-negative int is `natDigits`;
  * task dictionaries are the structure `Item`; `None` is `Option.none`;
    Python truthiness of an optional string is `truthyOptStr`.

Recursive functions that a witness must evaluate are written with structural
(fuel-based) recursion so that the kernel can reduce them.
-/

/-- Program strings: Python `str` restricted to its character list. -/
abbrev Str := List Char

/-- ASCII fragment of Python's regex class `\s` (the texts handled by the
program are ASCII). -/
def isWS (c : Char) : Bool :=
  c = ' ' || c = '\t' || c = '\n' || c = '\r' || c = '\x0b' || c = '\x0c'

/-- Python `int(...)` applied to a non-empty ASCII digit string. -/
def digitsToNat (ds : Str) : Nat :=
  ds.foldl (fun a c => a * 10 + (c.toNat - '0'.toNat)) 0

/-- Little-endian digit list of `n`, with `fuel` bounding the recursion depth
(structural recursion so the kernel can evaluate it; `fuel = n` suffices). -/
def natDigitsGo (fuel n : Nat) : List Char :=
  match fuel, n with
  | _, 0 => []
  | 0, _ => []
  | f + 1, m => Nat.digitChar (m % 10) :: natDigitsGo f (m / 10)

/-- Decimal rendering of a natural number, as produced by Python's
`'{}'.format(n)`: plain base 10, no padding, no leading zeros. -/
def natDigits (n : Nat) : List Char :=
  if n = 0 then ['0'] else (natDigitsGo n n).reverse

/-- The replacement text `'[day {}/{}]'.format(streak, goal)` built in
`Task.set_streak`. -/
def renderTok (streak goal : Nat) : Str :=
  '[' :: 'd' :: 'a' :: 'y' :: ' ' :: (natDigits streak ++ '/' :: (natDigits goal ++ [']']))

theorem isWS_space : isWS ' ' = true := by decide

theorem isWS_ne_lbracket {c : Char} (h : isWS c = true) : c ≠ '[' := by
  intro hc
  subst hc
  simp [isWS] at h

theorem isDigit_ne_lbracket {c : Char} (h : c.isDigit = true) : c ≠ '[' := by
  intro hc
  subst hc
  simp [Char.isDigit] at h

theorem digitsToNat_append_singleton (l : Str) (c : Char) :
    digitsToNat (l ++ [c]) = digitsToNat l * 10 + (c.toNat - '0'.toNat) := by
  simp [digitsToNat, List.foldl_append]

theorem digitChar_isDigit {d : Nat} (h : d < 10) : (Nat.digitChar d).isDigit = true := by
  interval_cases d <;> decide

theorem digitChar_toNat {d : Nat} (h : d < 10) :
    (Nat.digitChar d).toNat - '0'.toNat = d := by
  interval_cases d <;> decide

theorem natDigitsGo_fuel {f n : Nat} (h : n ≤ f) :
    digitsToNat (natDigitsGo f n).reverse = n := by
  induction f generalizing n with
  | zero =>
    interval_cases n
    simp [natDigitsGo, digitsToNat]
  | succ f ih =>
    match n with
    | 0 => simp [natDigitsGo, digitsToNat]
    | m + 1 =>
      have hdiv : (m + 1) / 10 ≤ f := by
        have := Nat.div_lt_self (Nat.succ_pos m) (by decide : 1 < 10)
        omega
      have hmod : (m + 1) % 10 < 10 := Nat.mod_lt _ (by decide)
      simp only [natDigitsGo, List.reverse_cons]
      rw [digitsToNat_append_singleton, ih hdiv, digitChar_toNat hmod]
      have := Nat.div_add_mod (m + 1) 10
      omega

theorem digitsToNat_natDigits (n : Nat) : digitsToNat (natDigits n) = n := by
  by_cases h : n = 0
  · subst h
    decide
  · simp only [natDigits, if_neg h]
    exact natDigitsGo_fuel le_rfl

theorem natDigitsGo_digits {f n : Nat} : ∀ c ∈ natDigitsGo f n, c.isDigit = true := by
  induction f generalizing n with
  | zero =>
    match n with
    | 0 => simp [natDigitsGo]
    | _ + 1 => simp [natDigitsGo]
  | succ f ih =>
    match n with
    | 0 => simp [natDigitsGo]
    | m + 1 =>
      intro c hc
      simp only [natDigitsGo, List.mem_cons] at hc
      rcases hc with hc | hc
      · subst hc
        exact digitChar_isDigit (Nat.mod_lt _ (by decide))
      · exact ih _ hc

theorem natDigits_digits (n : Nat) : ∀ c ∈ natDigits n, c.isDigit = true := by
  by_cases h : n = 0
  · subst h
    decide
  · simp only [natDigits, if_neg h, List.mem_reverse]
    exact natDigitsGo_digits

theorem natDigits_ne_nil (n : Nat) : natDigits n ≠ [] := by
  by_cases h : n = 0
  · subst h
    decide
  · simp only [natDigits, if_neg h]
    match n, h with
    | m + 1, _ =>
      simp [natDigitsGo]

theorem takeWhile_append_not {p : Char → Bool} {d : Str} (hd : ∀ x ∈ d, p x = true)
    {c : Char} (hc : p c = false) (r : Str) :
    (d ++ c :: r).takeWhile p = d := by
  induction d with
  | nil => simp [List.takeWhile_cons, hc]
  | cons x d ih =>
    have hx : p x = true := hd x (by simp)
    simp only [List.cons_append, List.takeWhile_cons, hx, if_pos trivial]
    simp only [ih (fun y hy => hd y (by simp [hy]))]

theorem dropWhile_append_not {p : Char → Bool} {d : Str} (hd : ∀ x ∈ d, p x = true)
    {c : Char} (hc : p c = false) (r : Str) :
    (d ++ c :: r).dropWhile p = c :: r := by
  induction d with
  | nil => simp [List.dropWhile_cons, hc]
  | cons x d ih =>
    have hx : p x = true := hd x (by simp)
    simp only [List.cons_append, List.dropWhile_cons, hx, if_pos trivial]
    exact ih (fun y hy => hd y (by simp [hy]))

/-- The part of the token regex after `\[day\s`: two greedy digit groups
separated by `/` and closed by `]`.  `rest.takeWhile Char.isDigit` is the
greedy `\d+`; since each group is followed by a non-digit literal, any
backtracked shorter group would be followed by a digit and fail, so greedy
maximal-munch is the unique regex match. -/
def matchNums (rest : Str) : Option (Nat × Nat × Str) :=
  match rest.dropWhile Char.isDigit with
  | '/' :: r2 =>
    if rest.takeWhile Char.isDigit = [] then none
    else
      match r2.dropWhile Char.isDigit with
      | ']' :: r4 =>
        if r2.takeWhile Char.isDigit = [] then none
        else some (digitsToNat (rest.takeWhile Char.isDigit),
                   digitsToNat (r2.takeWhile Char.isDigit), r4)
      | _ => none
  | _ => none

/-- Attempt to match the regex `\[day\s(\d+)\/(\d+)]` at the start of `s`,
returning the two parsed numbers and the text after the match. -/
def matchAt (s : Str) : Option (Nat × Nat × Str) :=
  match s with
  | a :: b :: c :: d :: e :: rest =>
    if a = '[' ∧ b = 'd' ∧ c = 'a' ∧ d = 'y' ∧ isWS e = true then matchNums rest else none
  | _ => none

/-- Model of `re.search` of the token pattern: try to match at each position, left to
right, and return the first match's groups.  This is `Task.get_habit`
restricted to the data the program reads off the match object. -/
def searchTok : Str → Option (Nat × Nat)
  | [] => none
  | c :: cs =>
    match matchAt (c :: cs) with
    | some (a, b, _) => some (a, b)
    | none => searchTok cs

/-- Body of `re.sub`: scan left to right and replace every non-overlapping match
with `rep`, continuing after the replaced region.  `fuel` bounds the
recursion (structural recursion so the kernel can evaluate it). -/
def subAllGo (rep : Str) : Nat → Str → Str
  | _, [] => []
  | 0, s => s
  | f + 1, c :: cs =>
    match matchAt (c :: cs) with
    | some (_, _, rest) => rep ++ subAllGo rep f rest
    | none => c :: subAllGo rep f cs

/-- Model of `re.sub(pattern, rep, s)`: replace every non-overlapping occurrence of the
token pattern in `s` by `rep`. -/
def subAll (rep s : Str) : Str :=
  subAllGo rep s.length s

theorem matchNums_eq_some {d1 d2 : Str} (h1 : d1 ≠ []) (h2 : d2 ≠ [])
    (hd1 : ∀ x ∈ d1, x.isDigit = true) (hd2 : ∀ x ∈ d2, x.isDigit = true) (r : Str) :
    matchNums (d1 ++ '/' :: (d2 ++ ']' :: r)) = some (digitsToNat d1, digitsToNat d2, r) := by
  have hslash : Char.isDigit '/' = false := by decide
  have hrbr : Char.isDigit ']' = false := by decide
  simp only [matchNums, dropWhile_append_not hd1 hslash, takeWhile_append_not hd1 hslash,
    dropWhile_append_not hd2 hrbr, takeWhile_append_not hd2 hrbr, if_neg h1, if_neg h2]

theorem matchNums_some_shape {rest : Str} {x y : Nat} {r : Str}
    (h : matchNums rest = some (x, y, r)) :
    ∃ d1 d2 : Str, rest = d1 ++ '/' :: (d2 ++ ']' :: r) ∧ d1 ≠ [] ∧ d2 ≠ [] ∧
      (∀ c ∈ d1, c.isDigit = true) ∧ (∀ c ∈ d2, c.isDigit = true) ∧
      x = digitsToNat d1 ∧ y = digitsToNat d2 := by
  unfold matchNums at h
  split at h
  case h_2 => exact absurd h (by simp)
  case h_1 r2 heq =>
    split at h
    case isTrue => exact absurd h (by simp)
    case isFalse hne1 =>
      split at h
      case h_2 => exact absurd h (by simp)
      case h_1 r4 heq2 =>
        split at h
        case isTrue => exact absurd h (by simp)
        case isFalse hne2 =>
          obtain ⟨hx, hy, hr⟩ : digitsToNat (rest.takeWhile Char.isDigit) = x ∧
              digitsToNat (r2.takeWhile Char.isDigit) = y ∧ r4 = r := by
            simpa using h
          refine ⟨rest.takeWhile Char.isDigit, r2.takeWhile Char.isDigit, ?_, hne1, hne2,
            fun c hc => List.mem_takeWhile_imp hc, fun c hc => List.mem_takeWhile_imp hc,
            hx.symm, hy.symm⟩
          have e1 : rest.takeWhile Char.isDigit ++ rest.dropWhile Char.isDigit = rest :=
        List.takeWhile_append_dropWhile _ _
          have e2 : r2.takeWhile Char.isDigit ++ r2.dropWhile Char.isDigit = r2 :=
        List.takeWhile_append_dropWhile _ _
          subst hr
          conv_lhs => rw [← e1, heq, ← e2, heq2]

theorem matchAt_some_shape {s : Str} {x y : Nat} {r : Str}
    (h : matchAt s = some (x, y, r)) :
    ∃ (e : Char) (d1 d2 : Str), isWS e = true ∧ d1 ≠ [] ∧ d2 ≠ [] ∧
      (∀ c ∈ d1, c.isDigit = true) ∧ (∀ c ∈ d2, c.isDigit = true) ∧
      x = digitsToNat d1 ∧ y = digitsToNat d2 ∧
      s = '[' :: 'd' :: 'a' :: 'y' :: e :: (d1 ++ '/' :: (d2 ++ ']' :: r)) := by
  match s with
  | [] => exact absurd h (by simp [matchAt])
  | [a] => exact absurd h (by simp [matchAt])
  | [a, b] => exact absurd h (by simp [matchAt])
  | [a, b, c] => exact absurd h (by simp [matchAt])
  | [a, b, c, d] => exact absurd h (by simp [matchAt])
  | a :: b :: c :: d :: e :: rest =>
    simp only [matchAt] at h
    split at h
    · next hcond =>
      obtain ⟨ha, hb, hc, hd, he⟩ := hcond
      subst ha hb hc hd
      obtain ⟨d1, d2, hrest, h1, h2, hd1, hd2, hx, hy⟩ := matchNums_some_shape h
      exact ⟨e, d1, d2, he, h1, h2, hd1, hd2, hx, hy, by rw [hrest]⟩
    · exact absurd h (by simp)

theorem matchAt_construct {e : Char} {d1 d2 : Str} (he : isWS e = true)
    (h1 : d1 ≠ []) (h2 : d2 ≠ []) (hd1 : ∀ c ∈ d1, c.isDigit = true)
    (hd2 : ∀ c ∈ d2, c.isDigit = true) (r : Str) :
    matchAt ('[' :: 'd' :: 'a' :: 'y' :: e :: (d1 ++ '/' :: (d2 ++ ']' :: r)))
      = some (digitsToNat d1, digitsToNat d2, r) := by
  simp only [matchAt]
  rw [if_pos ⟨trivial, trivial, trivial, trivial, he⟩]
  exact matchNums_eq_some h1 h2 hd1 hd2 r

theorem renderTok_append (streak goal : Nat) (X : Str) :
    renderTok streak goal ++ X
      = '[' :: 'd' :: 'a' :: 'y' :: ' ' ::
          (natDigits streak ++ '/' :: (natDigits goal ++ ']' :: X)) := by
  simp [renderTok, List.append_assoc]

theorem matchAt_renderTok (streak goal : Nat) (X : Str) :
    matchAt (renderTok streak goal ++ X) = some (streak, goal, X) := by
  rw [renderTok_append]
  rw [matchAt_construct isWS_space (natDigits_ne_nil streak) (natDigits_ne_nil goal)
    (natDigits_digits streak) (natDigits_digits goal) X]
  rw [digitsToNat_natDigits, digitsToNat_natDigits]

theorem matchAt_length_lt {s : Str} {x y : Nat} {r : Str}
    (h : matchAt s = some (x, y, r)) : r.length < s.length := by
  obtain ⟨e, d1, d2, _, _, _, _, _, _, _, hs⟩ := matchAt_some_shape h
  subst hs
  simp [List.length_append]
  omega

theorem matchAt_head_lbracket {s : Str} {x y : Nat} {r : Str}
    (h : matchAt s = some (x, y, r)) : ∃ t, s = '[' :: t := by
  obtain ⟨e, d1, d2, _, _, _, _, _, _, _, hs⟩ := matchAt_some_shape h
  exact ⟨_, hs⟩

theorem subAllGo_fuel (rep : Str) : ∀ (f1 f2 : Nat) (s : Str),
    s.length ≤ f1 → s.length ≤ f2 → subAllGo rep f1 s = subAllGo rep f2 s := by
  intro f1
  induction f1 with
  | zero =>
    intro f2 s h1 _
    have : s = [] := List.eq_nil_of_length_eq_zero (Nat.le_zero.mp h1)
    subst this
    cases f2 <;> rfl
  | succ f ih =>
    intro f2 s h1 h2
    match s with
    | [] => cases f2 <;> rfl
    | c :: cs =>
      match f2 with
      | 0 =>
        simp only [List.length_cons] at h2
        exact absurd h2 (by omega)
      | g + 1 =>
        simp only [List.length_cons] at h1 h2
        cases hm : matchAt (c :: cs) with
        | some p =>
          obtain ⟨x, y, rest⟩ := p
          have hlt : rest.length < cs.length + 1 := by
            have := matchAt_length_lt hm
            simpa using this
          simp only [subAllGo, hm]
          rw [ih g rest (by omega) (by omega)]
        | none =>
          simp only [subAllGo, hm]
          rw [ih g cs (by omega) (by omega)]

theorem subAll_nil (rep : Str) : subAll rep [] = [] := rfl

theorem subAll_cons_match {rep : Str} {c : Char} {cs : Str} {x y : Nat} {rest : Str}
    (h : matchAt (c :: cs) = some (x, y, rest)) :
    subAll rep (c :: cs) = rep ++ subAll rep rest := by
  have hlt : rest.length < (c :: cs).length := matchAt_length_lt h
  simp only [subAll, List.length_cons, subAllGo, h]
  rw [subAllGo_fuel rep cs.length rest.length rest (by simpa using Nat.lt_succ_iff.mp hlt) le_rfl]

theorem subAll_cons_none {rep : Str} {c : Char} {cs : Str}
    (h : matchAt (c :: cs) = none) :
    subAll rep (c :: cs) = c :: subAll rep cs := by
  simp only [subAll, List.length_cons, subAllGo, h]

theorem matchAt_none_stable {u v w : Str} (hu : u ≠ [])
    (h : matchAt (u ++ '[' :: v) = none) : matchAt (u ++ '[' :: w) = none := by
  cases hcw : matchAt (u ++ '[' :: w) with
  | none => rfl
  | some p =>
    exfalso
    obtain ⟨x, y, r⟩ := p
    obtain ⟨e, d1, d2, he, h1, h2, hd1, hd2, hx, hy, hs⟩ := matchAt_some_shape hcw
    have hMr : u ++ '[' :: w
        = ('[' :: 'd' :: 'a' :: 'y' :: e :: (d1 ++ '/' :: (d2 ++ [']']))) ++ r := by
      rw [hs]
      simp [List.append_assoc]
    have key : ∀ t : Str,
        u = ('[' :: 'd' :: 'a' :: 'y' :: e :: (d1 ++ '/' :: (d2 ++ [']']))) ++ t → False := by
      intro t hteq
      have hsome : matchAt (u ++ '[' :: v)
          = some (digitsToNat d1, digitsToNat d2, t ++ '[' :: v) := by
        rw [hteq]
        rw [show (('[' :: 'd' :: 'a' :: 'y' :: e :: (d1 ++ '/' :: (d2 ++ [']']))) ++ t)
              ++ '[' :: v
            = '[' :: 'd' :: 'a' :: 'y' :: e ::
                (d1 ++ '/' :: (d2 ++ ']' :: (t ++ '[' :: v))) from by
          simp [List.append_assoc]]
        exact matchAt_construct he h1 h2 hd1 hd2 _
      rw [h] at hsome
      exact absurd hsome (by simp)
    have htail : ∀ z ∈ ('d' :: 'a' :: 'y' :: e :: (d1 ++ '/' :: (d2 ++ ([']'] : Str)))),
        z ≠ '[' := by
      intro z hz
      simp only [List.mem_cons, List.mem_append, List.mem_singleton] at hz
      rcases hz with rfl | rfl | rfl | rfl | hz1 | rfl | hz2 | rfl | hz0
      · decide
      · decide
      · decide
      · exact isWS_ne_lbracket he
      · exact isDigit_ne_lbracket (hd1 _ hz1)
      · decide
      · exact isDigit_ne_lbracket (hd2 _ hz2)
      · decide
      · simp at hz0
    rcases List.append_eq_append_iff.mp hMr with ⟨a', hM, hw⟩ | ⟨c', hu', hr⟩
    · match a', hw with
      | [], _ =>
        exact key [] (by simpa using hM.symm)
      | aa :: a'', hw =>
        have haa : aa = '[' := by
          simp only [List.cons_append] at hw
          injection hw with hw1 hw2
          exact hw1.symm
        obtain ⟨u0, u', rfl⟩ : ∃ u0 u', u = u0 :: u' := by
          cases u with
          | nil => exact absurd rfl hu
          | cons a0 b0 => exact ⟨a0, b0, rfl⟩
        have hmem : aa ∈ ('d' :: 'a' :: 'y' :: e :: (d1 ++ '/' :: (d2 ++ ([']'] : Str)))) := by
          have h' := hM
          simp only [List.cons_append] at h'
          injection h' with hh ht
          rw [ht]
          exact List.mem_append.mpr (Or.inr (by simp))
        exact htail aa hmem haa
    · exact key c' hu'

theorem subAll_matchAt_none (a b : Nat) (s : Str) : ∀ u : Str, u ≠ [] →
    matchAt (u ++ s) = none → matchAt (u ++ subAll (renderTok a b) s) = none := by
  induction s with
  | nil =>
    intro u _ h
    simpa [subAll_nil] using h
  | cons c cs ih =>
    intro u hu h
    cases hm : matchAt (c :: cs) with
    | some p =>
      obtain ⟨x, y, rest⟩ := p
      rw [subAll_cons_match hm]
      obtain ⟨t, hct⟩ := matchAt_head_lbracket hm
      injection hct with hc hcs
      subst hc
      rw [show renderTok a b ++ subAll (renderTok a b) rest
          = '[' :: ('d' :: 'a' :: 'y' :: ' ' ::
              (natDigits a ++ '/' :: (natDigits b ++ ']' :: subAll (renderTok a b) rest)))
          from by rw [renderTok_append]]
      exact matchAt_none_stable hu h
    | none =>
      rw [subAll_cons_none hm]
      have step := ih (u ++ [c]) (by simp) (by simpa [List.append_assoc] using h)
      simpa [List.append_assoc] using step

theorem searchTok_renderTok (a b : Nat) (X : Str) :
    searchTok (renderTok a b ++ X) = some (a, b) := by
  have hm := matchAt_renderTok a b X
  rw [renderTok_append] at hm ⊢
  simp only [searchTok, hm]

theorem searchTok_subAll {s : Str} (a b : Nat) (h : (searchTok s).isSome = true) :
    searchTok (subAll (renderTok a b) s) = some (a, b) := by
  induction s with
  | nil => simp [searchTok] at h
  | cons c cs ih =>
    cases hm : matchAt (c :: cs) with
    | some p =>
      obtain ⟨x, y, rest⟩ := p
      rw [subAll_cons_match hm]
      exact searchTok_renderTok a b _
    | none =>
      rw [subAll_cons_none hm]
      have hcs : (searchTok cs).isSome = true := by
        simpa only [searchTok, hm] using h
      have hnone : matchAt (c :: subAll (renderTok a b) cs) = none := by
        have step := subAll_matchAt_none a b cs [c] (by simp) (by simpa using hm)
        simpa using step
      simp only [searchTok, hnone]
      exact ih hcs

theorem subAll_eq_self {rep s : Str} (h : searchTok s = none) : subAll rep s = s := by
  induction s with
  | nil => rfl
  | cons c cs ih =>
    have hm : matchAt (c :: cs) = none := by
      cases hmm : matchAt (c :: cs) with
      | none => rfl
      | some p =>
        obtain ⟨x, y, r⟩ := p
        simp only [searchTok, hmm] at h
        exact absurd h (Option.some_ne_none _)
    have hcs : searchTok cs = none := by
      simpa only [searchTok, hm] using h
    rw [subAll_cons_none hm, ih hcs]

theorem matchAt_cons_ne {c : Char} (hc : c ≠ '[') (cs : Str) : matchAt (c :: cs) = none := by
  match cs with
  | [] => simp [matchAt]
  | [b] => simp [matchAt]
  | [b, d] => simp [matchAt]
  | [b, d, e] => simp [matchAt]
  | b :: d :: e :: f :: rest => simp [matchAt, hc]

theorem subAll_append_nb {rep a : Str} (ha : ∀ x ∈ a, x ≠ '[') (s : Str) :
    subAll rep (a ++ s) = a ++ subAll rep s := by
  induction a with
  | nil => simp
  | cons c a' ih =>
    have hc : c ≠ '[' := ha c (by simp)
    have hm : matchAt (c :: (a' ++ s)) = none := matchAt_cons_ne hc _
    simp only [List.cons_append]
    rw [subAll_cons_none hm, ih (fun y hy => ha y (by simp [hy]))]

theorem subAll_renderTok_head (rep : Str) (s g : Nat) (X : Str) :
    subAll rep (renderTok s g ++ X) = rep ++ subAll rep X := by
  have hm := matchAt_renderTok s g X
  rw [renderTok_append] at hm ⊢
  exact subAll_cons_match hm

/-- Glue an alternating decomposition of a text back together: each entry of
`parts` is a (gap, matched substring) pair, `last` is the gap after the final
match, and `f` is applied to each matched substring (identity recovers the
original text; a constant function yields the text after `re.sub`). -/
def glueWith (f : Str → Str) : List (Str × Str) → Str → Str
  | [], last => last
  | (p, m) :: ps, last => p ++ f m ++ glueWith f ps last

theorem matchAt_extend {q : Str} {x y : Nat} {r : Str}
    (h : matchAt q = some (x, y, r)) (z : Str) :
    matchAt (q ++ z) = some (x, y, r ++ z) := by
  obtain ⟨e, d1, d2, he, h1, h2, hd1, hd2, hx, hy, hshape⟩ := matchAt_some_shape h
  subst hx
  subst hy
  rw [hshape]
  rw [show ('[' :: 'd' :: 'a' :: 'y' :: e :: (d1 ++ '/' :: (d2 ++ ']' :: r))) ++ z
      = '[' :: 'd' :: 'a' :: 'y' :: e :: (d1 ++ '/' :: (d2 ++ ']' :: (r ++ z))) from by
    simp [List.append_assoc]]
  exact matchAt_construct he h1 h2 hd1 hd2 (r ++ z)

theorem subAll_decomp (rep : Str) (n : Nat) : ∀ s : Str, s.length ≤ n →
    ∃ (parts : List (Str × Str)) (last : Str),
      (∀ pm ∈ parts, searchTok pm.1 = none) ∧
      (∀ pm ∈ parts, ∃ x y : Nat, matchAt pm.2 = some (x, y, [])) ∧
      searchTok last = none ∧
      s = glueWith id parts last ∧
      subAll rep s = glueWith (fun _ => rep) parts last ∧
      (parts = [] ↔ searchTok s = none) := by
  induction n with
  | zero =>
    intro s hs
    have hnil : s = [] := List.eq_nil_of_length_eq_zero (Nat.le_zero.mp hs)
    subst hnil
    exact ⟨[], [], by simp, by simp, rfl, rfl, rfl, by simp [searchTok]⟩
  | succ n ih =>
    intro s hs
    match s with
    | [] => exact ⟨[], [], by simp, by simp, rfl, rfl, rfl, by simp [searchTok]⟩
    | c :: cs =>
      simp only [List.length_cons] at hs
      cases hm : matchAt (c :: cs) with
      | some p3 =>
        obtain ⟨x, y, rest⟩ := p3
        have hrest : rest.length ≤ n := by
          have := matchAt_length_lt hm
          simp only [List.length_cons] at this
          omega
        obtain ⟨parts1, last1, hgap1, htok1, hlast1, hglue1, hsub1, hiff1⟩ := ih rest hrest
        obtain ⟨e, d1, d2, he, h1, h2, hd1, hd2, hx, hy, hshape⟩ := matchAt_some_shape hm
        have hMmatch : matchAt ('[' :: 'd' :: 'a' :: 'y' :: e :: (d1 ++ '/' :: (d2 ++ [']'])))
            = some (digitsToNat d1, digitsToNat d2, []) :=
          matchAt_construct he h1 h2 hd1 hd2 []
        have hsM : c :: cs
            = ('[' :: 'd' :: 'a' :: 'y' :: e :: (d1 ++ '/' :: (d2 ++ [']']))) ++ rest := by
          rw [hshape]
          simp [List.append_assoc]
        refine ⟨([], '[' :: 'd' :: 'a' :: 'y' :: e :: (d1 ++ '/' :: (d2 ++ [']']))) :: parts1,
          last1, ?_, ?_, hlast1, ?_, ?_, ?_⟩
        · intro pm hpm
          rcases List.mem_cons.mp hpm with rfl | hmem
          · rfl
          · exact hgap1 pm hmem
        · intro pm hpm
          rcases List.mem_cons.mp hpm with rfl | hmem
          · exact ⟨digitsToNat d1, digitsToNat d2, hMmatch⟩
          · exact htok1 pm hmem
        · simp only [glueWith, List.nil_append, id]
          rw [← hglue1]
          exact hsM
        · simp only [glueWith, List.nil_append]
          rw [subAll_cons_match hm, hsub1]
        · simp [searchTok, hm]
      | none =>
        have hcs : cs.length ≤ n := by omega
        obtain ⟨parts1, last1, hgap1, htok1, hlast1, hglue1, hsub1, hiff1⟩ := ih cs hcs
        rcases parts1 with _ | ⟨⟨p, m⟩, ps⟩
        · have hcseq : cs = last1 := hglue1
          have hscs : searchTok cs = none := hiff1.mp rfl
          have hs3 : searchTok (c :: cs) = none := by
            simp only [searchTok, hm]
            exact hscs
          refine ⟨[], c :: last1, by simp, by simp, ?_, ?_, ?_, ?_⟩
          · rw [← hcseq]
            exact hs3
          · simp only [glueWith]
            rw [hcseq]
          · rw [subAll_cons_none hm, hsub1]
            simp only [glueWith]
          · exact iff_of_true rfl hs3
        · have hmp : matchAt (c :: p) = none := by
            cases hq : matchAt (c :: p) with
            | none => rfl
            | some q3 =>
              obtain ⟨qx, qy, qr⟩ := q3
              exfalso
              have hext := matchAt_extend hq (m ++ glueWith id ps last1)
              have hpre : c :: cs = (c :: p) ++ (m ++ glueWith id ps last1) := by
                rw [hglue1]
                simp [glueWith, List.append_assoc]
              rw [← hpre] at hext
              rw [hm] at hext
              exact absurd hext (by simp)
          refine ⟨(c :: p, m) :: ps, last1, ?_, ?_, hlast1, ?_, ?_, ?_⟩
          · intro pm1 hpm1
            rcases List.mem_cons.mp hpm1 with rfl | hmem
            · have hp : searchTok p = none := hgap1 (p, m) (List.mem_cons_self _ _)
              simp only [searchTok, hmp]
              exact hp
            · exact hgap1 pm1 (List.mem_cons_of_mem _ hmem)
          · intro pm1 hpm1
            rcases List.mem_cons.mp hpm1 with rfl | hmem
            · exact htok1 (p, m) (List.mem_cons_self _ _)
            · exact htok1 pm1 (List.mem_cons_of_mem _ hmem)
          · rw [hglue1]
            simp [glueWith]
          · rw [subAll_cons_none hm, hsub1]
            simp [glueWith]
          · have hcs_ne : ¬ searchTok cs = none := by
              intro hn
              exact absurd (hiff1.mpr hn) (by simp)
            constructor
            · intro hceq
              exact absurd hceq (by simp)
            · intro hn
              exfalso
              apply hcs_ne
              simpa only [searchTok, hm] using hn

/-- The `due` sub-dictionary of a Todoist item: it may carry a concrete
`date` and/or a natural-language recurrence `string` (the program writes
`due = {'string': ...}`, which replaces the whole dictionary, dropping
`date`). -/
structure DueInfo where
  date : Option Str
  dstring : Option Str
deriving DecidableEq

/-- One task item as the program reads it: `item['content']`,
`item['due']` (possibly `None`), `item['in_history']`. -/
structure Item where
  content : Str
  due : Option DueInfo
  in_history : Bool
deriving DecidableEq

/-- Model of `Task.get_habit`: `re.search` of the token pattern over the content,
viewed as the pair of parsed groups (`None` when there is no match). -/
def get_habit (t : Item) : Option (Nat × Nat) :=
  searchTok t.content

/-- Python truthiness of an optional string: `None` and the empty string are
falsy. -/
def truthyOptStr : Option Str → Bool
  | none => false
  | some s => !s.isEmpty

/-- Model of `Task.due_date`: `self.item['due'].get('date')`.  (In Python this raises
when `due` is `None`; the program only reads it behind the `is_habit` gate,
where `due` is present.  The total model returns `none` there.) -/
def due_date (t : Item) : Option Str :=
  match t.due with
  | some d => d.date
  | none => none

/-- Model of `Task.is_habit`: `all([habit, item['due'].get('date') if item['due']
else None, not item['in_history']])`, with Python truthiness. -/
def is_habit (t : Item) : Bool :=
  (get_habit t).isSome && truthyOptStr (due_date t) && !t.in_history

/-- Model of `Task.is_due(today)`: `self.due_date != today`. -/
def is_due (t : Item) (today : Str) : Bool :=
  decide (due_date t ≠ some today)

/-- Model of `Task.current_streak`: group 1 of the match; `none` models the
`AttributeError` Python would raise when there is no token. -/
def current_streak (t : Item) : Option Nat :=
  (get_habit t).map Prod.fst

/-- Model of `Task.current_goal`: group 2 of the match; `none` models the
`AttributeError` Python would raise when there is no token. -/
def current_goal (t : Item) : Option Nat :=
  (get_habit t).map Prod.snd

/-- Model of `Task.set_streak(streak, goal)`: `re.sub(pattern, '[day {streak}/{goal}]',
content)` written back into the item. -/
def set_streak (streak goal : Nat) (t : Item) : Item :=
  { t with content := subAll (renderTok streak goal) t.content }

/-- The recurrence string `'ev day starting {}'.format(today)`. -/
def evDayStarting (today : Str) : Str :=
  ("ev day starting ".toList) ++ today

/-- Model of `Task.increase(n)` (driver calls it with the default `n = 1`):
`set_streak(current_streak + n, current_goal)`.  The `none` branch models a
task without a token, on which Python would raise; the driver only calls
`increase` behind the `is_habit` gate, so it is unreachable there. -/
def increase (t : Item) (n : Nat := 1) : Item :=
  match get_habit t with
  | some (s, g) => set_streak (s + n) g t
  | none => t

/-- Model of `Task.decrease(today)`: `set_streak(max(0, current_streak - 1),
current_goal)` and then `item.update(due={'string': 'ev day starting
{today}'})` (which replaces the whole `due` dictionary). -/
def decrease (today : Str) (t : Item) : Item :=
  match get_habit t with
  | some (s, g) =>
    let t1 := set_streak (Int.toNat (max 0 ((s : Int) - 1))) g t
    { t1 with due := some ⟨none, some (evDayStarting today)⟩ }
  | none => t

/-- Model of `Task.reset_to_zero(today)`: `set_streak(0, current_goal)` and then
`item.update(due={'string': 'ev day starting {today}'})`. -/
def reset_to_zero (today : Str) (t : Item) : Item :=
  match get_habit t with
  | some (_, g) =>
    let t1 := set_streak 0 g t
    { t1 with due := some ⟨none, some (evDayStarting today)⟩ }
  | none => t

/-- Model of `Task.habbit_complete`: `current_streak >= current_goal` (read from the
current, already rewritten, content).  The `none` branch models the parse
failure on which Python would raise; it is unreachable where the driver
calls it (`searchTok_subAll` shows the rewritten content still has a
token). -/
def habbit_complete (t : Item) : Bool :=
  match get_habit t with
  | some (s, g) => decide (g ≤ s)
  | none => false

/-- The per-task outcome of one pass of `Todoist.update_streak`: skip,
reset, or increment; an increment carries whether `habbit_complete` fired
and the task is deleted. -/
inductive Outcome where
  | skip
  | reset (t1 : Item)
  | increment (t1 : Item) (deleteIt : Bool)
deriving DecidableEq

/-- The decision logic of the loop body of `Todoist.update_streak`:
`if is_habit: (if is_due(today): reset_to_zero(today) else: increase();
if habbit_complete(): delete_task())`. -/
def evaluate (today : Str) (t : Item) : Outcome :=
  if is_habit t then
    if is_due t today then Outcome.reset (reset_to_zero today t)
    else
      let t1 := increase t
      Outcome.increment t1 (habbit_complete t1)
  else Outcome.skip

/-- Net effect of an outcome on the task: `none` means the task was
deleted. -/
def applyOutcome (t : Item) : Outcome → Option Item
  | Outcome.skip => some t
  | Outcome.reset t1 => some t1
  | Outcome.increment t1 deleteIt => if deleteIt then none else some t1

/-- Net effect of one pass of `Todoist.update_streak` on one task. -/
def processItem (today : Str) (t : Item) : Option Item :=
  applyOutcome t (evaluate today t)

/-- Model of `Todoist.update_streak` over the whole snapshot: every item is mapped
through the loop body; deleted items disappear from the store. -/
def update_streak (today : Str) (items : List Item) : List Item :=
  items.filterMap (processItem today)

/-- Model of `get_token`: `os.getenv('TODOIST_APIKEY')` modelled as an optional
string; `if not token: raise Exception(...)` (Python `not` is true on `None`
and on the empty string); otherwise the token is returned unchanged.  The
single `Except.error` exit is the only failure path: there is no retry. -/
def get_token (env : Option Str) : Except Str Str :=
  match env with
  | none => Except.error ("Please set the API token in environment variable.".toList)
  | some tok =>
    if tok.isEmpty then Except.error ("Please set the API token in environment variable.".toList)
    else Except.ok tok

theorem is_habit_parse {t : Item} (h : is_habit t = true) : (get_habit t).isSome = true := by
  simp only [is_habit, Bool.and_eq_true] at h
  exact h.1.1

theorem get_habit_set_streak {t : Item} (h : (get_habit t).isSome = true) (s g : Nat) :
    get_habit (set_streak s g t) = some (s, g) := by
  simp only [get_habit, set_streak] at h ⊢
  exact searchTok_subAll s g h

theorem searchTok_none_nb {a : Str} (ha : ∀ x ∈ a, x ≠ '[') : searchTok a = none := by
  induction a with
  | nil => rfl
  | cons c cs ih =>
    have hm := matchAt_cons_ne (ha c (by simp)) cs
    simp only [searchTok, hm]
    exact ih (fun y hy => ha y (by simp [hy]))

theorem evaluate_increment_eq {today : Str} {t : Item} {s g : Nat}
    (hh : is_habit t = true) (hp : get_habit t = some (s, g)) (hd : is_due t today = false) :
    evaluate today t = Outcome.increment (set_streak (s + 1) g t) (decide (g ≤ s + 1)) := by
  have hp1 : (get_habit t).isSome = true := by simp [hp]
  have hinc : increase t = set_streak (s + 1) g t := by simp [increase, hp]
  have hcomp : habbit_complete (set_streak (s + 1) g t) = decide (g ≤ s + 1) := by
    simp only [habbit_complete, get_habit_set_streak hp1 (s + 1) g]
  simp [evaluate, hh, hd, hinc, hcomp]

/-- C1: for an active habit task whose due date equals today (`is_due` is
false) and whose token parses as `(s, g)`, the increment branch runs:
the task is deleted exactly when the incremented streak `s + 1` reaches the
goal (`g ≤ s + 1`); in particular when `s + 1 = g` the pass rewrites the
token to `[day g/g]` (goal over goal) and emits the delete. -/
theorem streak_completion_delete (today : Str) (t : Item) (s g : Nat)
    (hh : is_habit t = true) (hp : get_habit t = some (s, g)) (hd : is_due t today = false) :
    (processItem today t = none ↔ g ≤ s + 1) ∧
    (s + 1 = g →
      evaluate today t = Outcome.increment (set_streak g g t) true ∧
      get_habit (set_streak g g t) = some (g, g)) := by
  have hp1 : (get_habit t).isSome = true := by simp [hp]
  have hev := evaluate_increment_eq hh hp hd
  constructor
  · rw [processItem, hev]
    by_cases hle : g ≤ s + 1
    · simp [applyOutcome, hle]
    · simp [applyOutcome, hle]
  · intro heq
    subst heq
    refine ⟨?_, get_habit_set_streak hp1 _ _⟩
    rw [hev]
    simp

/-- Witness for C1 at scenario B of the spec: `"Meditate [day 9/10]"` due
today is incremented to `[day 10/10]` and deleted. -/
theorem streak_completion_delete_witness :
    (processItem ("2024-05-01".toList)
        ⟨"Meditate [day 9/10]".toList, some ⟨some ("2024-05-01".toList), none⟩, false⟩ = none
      ↔ 10 ≤ 9 + 1) ∧
    (9 + 1 = 10 →
      evaluate ("2024-05-01".toList)
          ⟨"Meditate [day 9/10]".toList, some ⟨some ("2024-05-01".toList), none⟩, false⟩
        = Outcome.increment
            (set_streak 10 10
              ⟨"Meditate [day 9/10]".toList, some ⟨some ("2024-05-01".toList), none⟩, false⟩)
            true ∧
      get_habit (set_streak 10 10
          ⟨"Meditate [day 9/10]".toList, some ⟨some ("2024-05-01".toList), none⟩, false⟩)
        = some (10, 10)) :=
  streak_completion_delete ("2024-05-01".toList)
    ⟨"Meditate [day 9/10]".toList, some ⟨some ("2024-05-01".toList), none⟩, false⟩
    9 10 (by decide) (by decide) (by decide)

/-- C2 counterexample: on scenario C (`"Meditate [day 4/10]"`, due
2024-05-01, today 2024-05-02) the pass resets the task, but the recurring
due-date string it writes is `"ev day starting 2024-05-02"` (the code's
`'ev day starting {}'` template), which is not the string
`"every day starting 2024-05-02"` the claim states. -/
theorem reset_due_string_cex :
    processItem ("2024-05-02".toList)
        ⟨"Meditate [day 4/10]".toList, some ⟨some ("2024-05-01".toList), none⟩, false⟩
      = some ⟨"Meditate [day 0/10]".toList,
              some ⟨none, some ("ev day starting 2024-05-02".toList)⟩, false⟩ ∧
    ("ev day starting 2024-05-02".toList : Str) ≠ "every day starting 2024-05-02".toList := by
  constructor
  · decide
  · decide

/-- C2 (amended): for an active habit task whose stored due date differs
from today (`is_due` is true), the pass resets the streak to 0 keeping the
goal, writes the recurring due-date string `'ev day starting {today}'`
(Todoist's shorthand; the claim said "every day starting"), and does not
delete the task. -/
theorem reset_on_missed_day (today : Str) (t : Item) (s g : Nat)
    (hh : is_habit t = true) (hp : get_habit t = some (s, g)) (hd : is_due t today = true) :
    evaluate today t = Outcome.reset (reset_to_zero today t) ∧
    processItem today t = some (reset_to_zero today t) ∧
    get_habit (reset_to_zero today t) = some (0, g) ∧
    (reset_to_zero today t).due = some ⟨none, some (evDayStarting today)⟩ := by
  have hp1 : (get_habit t).isSome = true := by simp [hp]
  have hev : evaluate today t = Outcome.reset (reset_to_zero today t) := by
    simp [evaluate, hh, hd]
  have hr : reset_to_zero today t
      = { set_streak 0 g t with due := some ⟨none, some (evDayStarting today)⟩ } := by
    simp [reset_to_zero, hp]
  refine ⟨hev, ?_, ?_, ?_⟩
  · rw [processItem, hev]
    rfl
  · rw [hr]
    exact get_habit_set_streak hp1 0 g
  · rw [hr]

/-- Witness for C2 (amended) at scenario C of the spec. -/
theorem reset_on_missed_day_witness :
    evaluate ("2024-05-02".toList)
        ⟨"Meditate [day 4/10]".toList, some ⟨some ("2024-05-01".toList), none⟩, false⟩
      = Outcome.reset (reset_to_zero ("2024-05-02".toList)
          ⟨"Meditate [day 4/10]".toList, some ⟨some ("2024-05-01".toList), none⟩, false⟩) ∧
    processItem ("2024-05-02".toList)
        ⟨"Meditate [day 4/10]".toList, some ⟨some ("2024-05-01".toList), none⟩, false⟩
      = some (reset_to_zero ("2024-05-02".toList)
          ⟨"Meditate [day 4/10]".toList, some ⟨some ("2024-05-01".toList), none⟩, false⟩) ∧
    get_habit (reset_to_zero ("2024-05-02".toList)
        ⟨"Meditate [day 4/10]".toList, some ⟨some ("2024-05-01".toList), none⟩, false⟩)
      = some (0, 10) ∧
    (reset_to_zero ("2024-05-02".toList)
        ⟨"Meditate [day 4/10]".toList, some ⟨some ("2024-05-01".toList), none⟩, false⟩).due
      = some ⟨none, some (evDayStarting ("2024-05-02".toList))⟩ :=
  reset_on_missed_day ("2024-05-02".toList)
    ⟨"Meditate [day 4/10]".toList, some ⟨some ("2024-05-01".toList), none⟩, false⟩
    4 10 (by decide) (by decide) (by decide)

/-- C3 counterexample: `set_streak` is `re.sub`, which rewrites every
occurrence.  On a text with two tokens, the second token is rewritten too;
the claimed result (first token rewritten, rest byte-identical) differs. -/
theorem set_streak_first_only_cex :
    set_streak 5 6 ⟨"a [day 1/2] b [day 3/4]".toList, none, false⟩
      = ⟨"a [day 5/6] b [day 5/6]".toList, none, false⟩ ∧
    (⟨"a [day 5/6] b [day 5/6]".toList, none, false⟩ : Item)
      ≠ ⟨"a [day 5/6] b [day 3/4]".toList, none, false⟩ := by
  constructor
  · decide
  · decide

/-- C3 (amended): for every task whose text contains one or more streak
tokens, `set_streak` replaces every substring matching the token grammar —
each non-overlapping match of the left-to-right scan, not only the first —
with `[day streak/goal]`, and leaves every other byte byte-identical: the
text decomposes into alternating gaps and matched tokens, where each
matched substring is a complete grammar match, every gap (and the final
segment) is token-free, and the rewritten text is exactly the same gaps
with every matched token replaced by the canonical rendering. -/
theorem set_streak_rewrites_every_token (streak goal : Nat) (t : Item)
    (h : (get_habit t).isSome = true) :
    ∃ (parts : List (Str × Str)) (last : Str),
      parts ≠ [] ∧
      (∀ pm ∈ parts, searchTok pm.1 = none) ∧
      (∀ pm ∈ parts, ∃ x y : Nat, matchAt pm.2 = some (x, y, [])) ∧
      searchTok last = none ∧
      t.content = glueWith id parts last ∧
      (set_streak streak goal t).content
        = glueWith (fun _ => renderTok streak goal) parts last := by
  obtain ⟨parts, last, hgap, htok, hlast, hglue, hsub, hiff⟩ :=
    subAll_decomp (renderTok streak goal) t.content.length t.content le_rfl
  refine ⟨parts, last, ?_, hgap, htok, hlast, hglue, hsub⟩
  intro hnil
  have hnone : searchTok t.content = none := hiff.mp hnil
  have h2 : (searchTok t.content).isSome = true := h
  rw [hnone] at h2
  simp at h2

/-- Witness for C3 (amended) at a concrete two-token text. -/
theorem set_streak_rewrites_every_token_witness :
    ∃ (parts : List (Str × Str)) (last : Str),
      parts ≠ [] ∧
      (∀ pm ∈ parts, searchTok pm.1 = none) ∧
      (∀ pm ∈ parts, ∃ x y : Nat, matchAt pm.2 = some (x, y, [])) ∧
      searchTok last = none ∧
      (⟨"a [day 1/2] b [day 3/4]".toList, none, false⟩ : Item).content
        = glueWith id parts last ∧
      (set_streak 5 6 ⟨"a [day 1/2] b [day 3/4]".toList, none, false⟩).content
        = glueWith (fun _ => renderTok 5 6) parts last :=
  set_streak_rewrites_every_token 5 6 ⟨"a [day 1/2] b [day 3/4]".toList, none, false⟩
    (by decide)

/-- C4: round-trip of the codec — for every text that contains a token and
all streak, goal, parsing the rendered text gives back exactly
`(streak, goal)` (the numbers are serialized by `natDigits` as plain base-10
integers, so `digitsToNat` recovers them exactly). -/
theorem parse_render_roundtrip (text : Str) (streak goal : Nat)
    (h : (searchTok text).isSome = true) :
    searchTok (subAll (renderTok streak goal) text) = some (streak, goal) :=
  searchTok_subAll streak goal h

/-- Witness for C4 at a concrete text and values. -/
theorem parse_render_roundtrip_witness :
    searchTok (subAll (renderTok 7 12) ("Meditate [day 4/10]".toList)) = some (7, 12) :=
  parse_render_roundtrip ("Meditate [day 4/10]".toList) 7 12 (by decide)

/-- C5: a task that is not an active habit — no parseable token, or a due
date that is absent (Python-falsy), or archived — is skipped by the pass:
the outcome is `Skip` and the task survives unchanged, for every `today`. -/
theorem skip_inactive (today : Str) (t : Item)
    (h : get_habit t = none ∨ truthyOptStr (due_date t) = false ∨ t.in_history = true) :
    evaluate today t = Outcome.skip ∧ processItem today t = some t := by
  have hnh : is_habit t = false := by
    rcases h with h | h | h <;> simp [is_habit, h]
  constructor
  · simp [evaluate, hnh]
  · simp [processItem, evaluate, hnh, applyOutcome]

/-- Witness for C5 at scenario D of the spec: `"Buy milk"` with a due date
but no token is skipped. -/
theorem skip_inactive_witness :
    evaluate ("2024-05-01".toList)
        ⟨"Buy milk".toList, some ⟨some ("2024-05-01".toList), none⟩, false⟩ = Outcome.skip ∧
    processItem ("2024-05-01".toList)
        ⟨"Buy milk".toList, some ⟨some ("2024-05-01".toList), none⟩, false⟩
      = some ⟨"Buy milk".toList, some ⟨some ("2024-05-01".toList), none⟩, false⟩ :=
  skip_inactive ("2024-05-01".toList)
    ⟨"Buy milk".toList, some ⟨some ("2024-05-01".toList), none⟩, false⟩
    (Or.inl (by decide))

/-- C6: on a task whose text contains a token parsed as `(s, g)`, `decrease`
sets the streak to `max(0, s - 1)` — which over the naturals is `s - 1` —
keeps the goal, and replaces the `due` dictionary with the recurring
due-date string; in particular at `s = 0` the streak stays 0 and the
serialized streak is never negative (it is a natural number). -/
theorem decrease_floor (today : Str) (t : Item) (s g : Nat)
    (hp : get_habit t = some (s, g)) :
    get_habit (decrease today t) = some (s - 1, g) ∧
    (decrease today t).due = some ⟨none, some (evDayStarting today)⟩ ∧
    (s = 0 → get_habit (decrease today t) = some (0, g)) := by
  have hp1 : (get_habit t).isSome = true := by simp [hp]
  have hmax : Int.toNat (max 0 ((s : Int) - 1)) = s - 1 := by omega
  have hdec : decrease today t
      = { set_streak (s - 1) g t with due := some ⟨none, some (evDayStarting today)⟩ } := by
    simp [decrease, hp, hmax]
  refine ⟨?_, by rw [hdec], ?_⟩
  · rw [hdec]
    exact get_habit_set_streak hp1 (s - 1) g
  · intro hs
    subst hs
    rw [hdec]
    exact get_habit_set_streak hp1 (0 - 1) g

/-- Witness for C6 at a zero-streak task: decrease leaves the streak at 0. -/
theorem decrease_floor_witness :
    get_habit (decrease ("2024-05-02".toList) ⟨"Meditate [day 0/10]".toList, none, false⟩)
      = some (0 - 1, 10) ∧
    (decrease ("2024-05-02".toList) ⟨"Meditate [day 0/10]".toList, none, false⟩).due
      = some ⟨none, some (evDayStarting ("2024-05-02".toList))⟩ ∧
    (0 = 0 →
      get_habit (decrease ("2024-05-02".toList) ⟨"Meditate [day 0/10]".toList, none, false⟩)
        = some (0, 10)) :=
  decrease_floor ("2024-05-02".toList) ⟨"Meditate [day 0/10]".toList, none, false⟩
    0 10 (by decide)

/-- C7: on a text containing no substring matching the token grammar
(`get_habit` is `none`), `set_streak` is the identity: `re.sub` finds
nothing to replace, so the codec never inserts a token into token-less
text. -/
theorem set_streak_no_insert (t : Item) (streak goal : Nat)
    (h : get_habit t = none) : set_streak streak goal t = t := by
  cases t with
  | mk c d i =>
    have h' : searchTok c = none := h
    simp only [set_streak, Item.mk.injEq]
    exact ⟨subAll_eq_self h', trivial, trivial⟩

/-- Witness for C7 at a token-less text. -/
theorem set_streak_no_insert_witness :
    set_streak 3 5 ⟨"Buy milk".toList, none, true⟩ = ⟨"Buy milk".toList, none, true⟩ :=
  set_streak_no_insert ⟨"Buy milk".toList, none, true⟩ 3 5 (by decide)

/-- C8: one pass gives every task exactly one of the four outcomes.  The
four disjuncts below are pairwise exclusive (they fix `is_habit`, `is_due`
and `habbit_complete` to incompatible values), and exactly the last one
deletes the task; in particular a reset outcome always keeps the task, so a
task is never both reset and deleted in the same pass. -/
theorem evaluate_exactly_one (today : Str) (t : Item) :
    (is_habit t = false ∧ evaluate today t = Outcome.skip ∧
      processItem today t = some t) ∨
    (is_habit t = true ∧ is_due t today = true ∧
      evaluate today t = Outcome.reset (reset_to_zero today t) ∧
      processItem today t = some (reset_to_zero today t)) ∨
    (is_habit t = true ∧ is_due t today = false ∧
      habbit_complete (increase t) = false ∧
      evaluate today t = Outcome.increment (increase t) false ∧
      processItem today t = some (increase t)) ∨
    (is_habit t = true ∧ is_due t today = false ∧
      habbit_complete (increase t) = true ∧
      evaluate today t = Outcome.increment (increase t) true ∧
      processItem today t = none) := by
  cases hh : is_habit t with
  | false =>
    exact Or.inl ⟨rfl, by simp [evaluate, hh], by simp [processItem, evaluate, hh, applyOutcome]⟩
  | true =>
    cases hd : is_due t today with
    | true =>
      exact Or.inr (Or.inl ⟨rfl, rfl, by simp [evaluate, hh, hd],
        by simp [processItem, evaluate, hh, hd, applyOutcome]⟩)
    | false =>
      cases hc : habbit_complete (increase t) with
      | false =>
        exact Or.inr (Or.inr (Or.inl ⟨rfl, rfl, rfl, by simp [evaluate, hh, hd, hc],
          by simp [processItem, evaluate, hh, hd, hc, applyOutcome]⟩))
      | true =>
        exact Or.inr (Or.inr (Or.inr ⟨rfl, rfl, rfl, by simp [evaluate, hh, hd, hc],
          by simp [processItem, evaluate, hh, hd, hc, applyOutcome]⟩))

/-- C9: reading the streak and goal behind the `is_habit` gate cannot fail —
the gate requires a successful parse, so `current_streak` and `current_goal`
are `some`; and `is_habit` itself is total, returning `false` (not an
error) when the `due` field is absent. -/
theorem active_habit_parse_total (t : Item) :
    (is_habit t = true →
      (current_streak t).isSome = true ∧ (current_goal t).isSome = true) ∧
    (t.due = none → is_habit t = false) := by
  constructor
  · intro h
    have hp : (get_habit t).isSome = true := is_habit_parse h
    obtain ⟨p, hp2⟩ := Option.isSome_iff_exists.mp hp
    constructor <;> simp [current_streak, current_goal, hp2]
  · intro h
    simp [is_habit, due_date, h, truthyOptStr]

/-- Witness for C9: an active habit task has parseable streak and goal, and
a task with no due field is not a habit. -/
theorem active_habit_parse_total_witness :
    ((current_streak ⟨"Meditate [day 4/10]".toList,
        some ⟨some ("2024-05-01".toList), none⟩, false⟩).isSome = true ∧
      (current_goal ⟨"Meditate [day 4/10]".toList,
        some ⟨some ("2024-05-01".toList), none⟩, false⟩).isSome = true) ∧
    is_habit ⟨"Meditate [day 4/10]".toList, none, false⟩ = false :=
  ⟨(active_habit_parse_total
      ⟨"Meditate [day 4/10]".toList, some ⟨some ("2024-05-01".toList), none⟩, false⟩).1
      (by decide),
   (active_habit_parse_total ⟨"Meditate [day 4/10]".toList, none, false⟩).2 rfl⟩

/-- C10: `get_token` fails exactly when the configuration value is absent or
the empty string (Python's `not token`); a present non-empty token is
returned unchanged.  The failure is a single immediate `Except.error` —
there is no retry path in the definition. -/
theorem get_token_spec (env : Option Str) :
    ((∃ e, get_token env = Except.error e) ↔ (env = none ∨ env = some [])) ∧
    (∀ tok, env = some tok → tok ≠ [] → get_token env = Except.ok tok) := by
  constructor
  · constructor
    · rintro ⟨e, he⟩
      match env with
      | none => exact Or.inl rfl
      | some tok =>
        by_cases ht : tok.isEmpty = true
        · right
          rw [List.isEmpty_iff] at ht
          rw [ht]
        · simp [get_token, ht] at he
    · rintro (rfl | rfl)
      · exact ⟨_, rfl⟩
      · exact ⟨_, rfl⟩
  · rintro tok rfl hne
    simp [get_token, List.isEmpty_iff, hne]

/-- Witness for C10: absent value errors, a concrete non-empty value is
returned unchanged. -/
theorem get_token_spec_witness :
    (∃ e, get_token none = Except.error e) ∧
    get_token (some ("k".toList)) = Except.ok ("k".toList) :=
  ⟨(get_token_spec none).1.mpr (Or.inl rfl),
   (get_token_spec (some ("k".toList))).2 ("k".toList) rfl (by decide)⟩
